import Mathlib

/- Lean embedding of the label handling, joint-loss combination, checkpoint
selection, validation batching and inference-path logic of the
image-classification training scripts of this repository
(train_models.py, train_age.py, train_5fold.py, final/test.py).
Machine reals are modelled by rationals; the transcendental pieces of the
cross-entropy loss (exp, log) are abstract function parameters; the IEEE NaN
produced by a zero min-max divisor is modelled by an Option none. -/

/-- Combined-label composition, from train_models.py line 91:
`pred = torch.max(age_pred, 1)[1] + 3*torch.max(gender_pred, 1)[1] + 6*torch.max(mask_pred, 1)[1]`
composes per-task argmax predictions into one combined class index. -/
def composeLabel (mask gender age : Nat) : Nat :=
  age + 3 * gender + 6 * mask

/-- Modelled from the spec: `MaskBaseDataset.decode_multi_class` lives in the
external `dataset` module and is not under the repository sources.  The spec
describes it as fixed-radix decomposition of a combined label in [0,17],
mask-major (mask has 3 buckets, gender 2, age 3), decoded via integer
division/modulo. -/
def decodeMultiClass (label : Nat) : Nat × Nat × Nat :=
  (label / 6, label / 3 % 2, label % 3)

/-- Path handed to `torch.load` in final/test.py line 76:
`model = torch.load('/opt/ml/submissions/submission_effb5age.csv')`. -/
def modelLoadPath : String :=
  "/opt/ml/submissions/submission_effb5age.csv"

/-- Directory argument of the submission write in final/test.py line 92. -/
def submissionsDir : String :=
  "/opt/ml/submissions"

/-- File-name argument of the submission write in final/test.py line 92. -/
def submissionFileName : String :=
  "submission_effb5age.csv"

/-- Python `os.path.join` restricted to two components (standard library
semantics: an absolute second component wins; otherwise the parts are joined,
inserting a separator unless the first part already ends in one). -/
def osPathJoin (a b : String) : String :=
  if b.data.headD ' ' = '/' then b
  else if a.data.getLastD ' ' = '/' then a ++ b
  else a ++ "/" ++ b

/-- Path to which final/test.py line 92 writes its tabular prediction output:
`submission.to_csv(os.path.join('/opt/ml/submissions', 'submission_effb5age.csv'), index=False)`. -/
def submissionOutPath : String :=
  osPathJoin submissionsDir submissionFileName

/-- One Python statement, abstracted to the names it binds and the names it
reads, in evaluation order. -/
structure PyStmt where
  targets : List String
  reads : List String

/-- Run a straight-line block under Python name resolution: the first read of
a name absent from the environment raises a NameError carrying that name;
otherwise the statement's targets are bound and execution continues. -/
def runStmts (env : List String) : List PyStmt → Except String (List String)
  | [] => .ok env
  | st :: rest =>
    match st.reads.find? (fun r => !(env.contains r)) with
    | some r => .error r
    | none => runStmts (st.targets ++ env) rest

/-- Names bound on any path reaching the first validation batch of
`train_models` (train_models.py lines 14-151): module imports, builtins used,
the function parameter, and every local assigned anywhere before line 152,
including the training-batch locals and the validation locals of lines
136-150.  Note line 136 binds `total_val_acc`, not `total_val_loss`. -/
def envAtFirstValBatch : List String :=
  ["np", "plt", "torch", "nn", "optim", "F", "getDataloader", "torchvision",
   "get_model", "argparse", "timezone", "dt", "print", "len", "range",
   "enumerate", "args", "now", "train_dataloader", "val_dataloader", "device",
   "criterion", "age_model", "gender_model", "mask_model", "age_optimizer",
   "gender_optimizer", "mask_optimizer", "max_val_acc", "epoch", "total_acc",
   "total_age_acc", "total_mask_acc", "total_gender_acc", "total_age_loss",
   "total_mask_loss", "total_gender_loss", "batch_iter", "batch", "img",
   "label", "gender", "age", "mask", "age_pred", "gender_pred", "mask_pred",
   "age_loss", "gender_loss", "mask_loss", "age_acc", "gender_acc",
   "mask_acc", "pred", "acc", "avg_age_loss", "avg_mask_loss",
   "avg_gender_loss", "avg_acc", "avg_age_acc", "avg_mask_acc",
   "avg_gender_acc", "total_val_acc", "val_iter", "val_batch"]

/-- Body of the validation batch loop of train_models.py lines 141-155, one
entry per statement, reads listed in Python evaluation order.  Line 152 reads
`y_pred` and `val_batch_out`, line 153 reads `loss_out`, and line 154 reads
`total_val_loss` before assigning it. -/
def valBatchBody : List PyStmt :=
  [⟨["img", "label", "gender", "age", "mask"], ["val_batch"]⟩,
   ⟨["img"], ["img", "device"]⟩,
   ⟨["label"], ["label", "device"]⟩,
   ⟨["gender"], ["gender", "device"]⟩,
   ⟨["age"], ["age", "device"]⟩,
   ⟨["mask"], ["mask", "device"]⟩,
   ⟨["age_pred"], ["age_model", "img"]⟩,
   ⟨["mask_pred"], ["mask_model", "img"]⟩,
   ⟨["gender_pred"], ["gender_model", "img"]⟩,
   ⟨["acc_out"], ["torch", "y_pred", "val_batch_out", "len"]⟩,
   ⟨[], ["print", "epoch", "val_iter", "acc_out", "loss_out"]⟩,
   ⟨["total_val_loss"], ["total_val_loss", "loss_out"]⟩,
   ⟨["total_val_acc"], ["total_val_acc", "acc_out"]⟩]

/-- All scalar entries of a batch of 11-class logit rows, in row-major order
(the elementwise view a torch tensor reduction such as `torch.min(outs)`
ranges over). -/
def entriesOf (outs : List (Fin 11 → ℚ)) : List ℚ :=
  outs.flatMap fun r => (List.finRange 11).map r

/-- Minimum of a list of rationals, 0 on the empty list (the empty case never
arises for a nonempty batch). -/
def listMin0 : List ℚ → ℚ
  | [] => 0
  | x :: xs => xs.foldl min x

/-- Maximum of a list of rationals, 0 on the empty list. -/
def listMax0 : List ℚ → ℚ
  | [] => 0
  | x :: xs => xs.foldl max x

/-- `torch.min(outs)` of train_age.py line 189: global minimum over the whole
batch tensor. -/
def batchMin (outs : List (Fin 11 → ℚ)) : ℚ :=
  listMin0 (entriesOf outs)

/-- `torch.max(outs)` of train_age.py line 189: global maximum over the whole
batch tensor. -/
def batchMax (outs : List (Fin 11 → ℚ)) : ℚ :=
  listMax0 (entriesOf outs)

/-- Min-max normalization of train_age.py line 189:
`outs_normal = (outs - torch.min(outs)) / (torch.max(outs) - torch.min(outs))`.
The source divides unguarded; when the divisor `max - min` is zero the IEEE
result is NaN, modelled here as `none`. -/
def normalizeBatch (outs : List (Fin 11 → ℚ)) : Option (List (Fin 11 → ℚ)) :=
  if batchMax outs - batchMin outs = 0 then none
  else some (outs.map fun r j => (r j - batchMin outs) / (batchMax outs - batchMin outs))

/-- Re-bucketing of train_age.py line 190 applied to one normalized row:
`torch.cat([torch.sum(outs_normal[:,:5], ...), torch.sum(outs_normal[:,5:11], ...), outs_normal[:,-1]...])`,
i.e. bucket 0 sums indices 0-4, bucket 1 sums indices 5-10, bucket 2 is the
last index alone. -/
def bucketOuts (n : Fin 11 → ℚ) : Fin 3 → ℚ :=
  ![n 0 + n 1 + n 2 + n 3 + n 4,
    n 5 + n 6 + n 7 + n 8 + n 9 + n 10,
    n 10]

/-- Bucket 1 as the spec words it: the normalized indices 5-10 minus the
last one, i.e. the sum over indices 5-9.  Stated from the spec for
comparison with `bucketOuts` from the source. -/
def specBucket1 (n : Fin 11 → ℚ) : ℚ :=
  n 5 + n 6 + n 7 + n 8 + n 9

/-- Class weights of train_age.py line 193:
`weights = torch.FloatTensor([1.5, 1.5, 7])`. -/
def ageWeights : Fin 3 → ℚ :=
  ![1.5, 1.5, 7]

/-- One per-sample term of `nn.CrossEntropyLoss`: the negative log of the
softmax probability of the target class, with `exp` and `log` abstract. -/
def ceTermW (expF logF : ℚ → ℚ) (x : Fin 3 → ℚ) (y : Fin 3) : ℚ :=
  - logF (expF (x y) / (expF (x 0) + expF (x 1) + expF (x 2)))

/-- `nn.CrossEntropyLoss(weight = w)` on a batch, mean reduction: the
weighted per-sample terms divided by the total weight of the targets
(PyTorch weighted-mean semantics), with `exp` and `log` abstract. -/
def crossEntropyW (expF logF : ℚ → ℚ) (w : Fin 3 → ℚ)
    (inputs : List (Fin 3 → ℚ)) (targets : List (Fin 3)) : ℚ :=
  (((inputs.zip targets).map fun p => w p.2 * ceTermW expF logF p.1 p.2).sum) /
    (((inputs.zip targets).map fun p => w p.2).sum)

/-- Per-batch scalar loss of train_age.py lines 187-197: the configured
criterion on the 11-class logits (line 187), min-max normalization (189),
re-bucketing (190), the weighted cross-entropy on the 3 coarse scores (193-195),
combined as `loss = 0.5 * age_loss + original_loss` (197).  `none` models the
NaN loss of an all-equal-logits batch. -/
def trainStepLoss (criterion : List (Fin 11 → ℚ) → List (Fin 11) → ℚ)
    (expF logF : ℚ → ℚ) (outs : List (Fin 11 → ℚ)) (orgLabels : List (Fin 3))
    (labels : List (Fin 11)) : Option ℚ :=
  let ageLoss := criterion outs labels
  match normalizeBatch outs with
  | none => none
  | some outsNormal =>
    let finalOuts := outsNormal.map bucketOuts
    let originalLoss := crossEntropyW expF logF ageWeights finalOuts orgLabels
    some (0.5 * ageLoss + originalLoss)

/-- Concrete logit row with a 1 at the last index and 0 elsewhere, used as
test input for the re-bucketing. -/
def c2Row : Fin 11 → ℚ :=
  fun j => if j = 10 then 1 else 0

/-- Singleton batch holding `c2Row`. -/
def c2Batch : List (Fin 11 → ℚ) :=
  [c2Row]

/-- The normalized form of `c2Batch`, written as the source computes it. -/
def c2Ns : List (Fin 11 → ℚ) :=
  [fun j => (c2Row j - batchMin c2Batch) / (batchMax c2Batch - batchMin c2Batch)]

/-- Concrete logit row with a single nonzero entry, a batch whose min and max
differ. -/
def c3Out : Fin 11 → ℚ :=
  fun j => if j = 0 then 1 else 0

/-- A batch whose logits are all equal (value 2 everywhere). -/
def c10Const : List (Fin 11 → ℚ) :=
  [fun _ => 2]

/-- Running loss accumulator over one logging window, train_age.py line 202:
each batch adds `loss.item() / 2` to `loss_value`. -/
def windowLossValue (losses : List ℚ) : ℚ :=
  losses.foldl (fun acc l => acc + l / 2) 0

/-- Logged training loss of train_age.py line 209:
`train_loss = loss_value / args.log_interval`. -/
def windowTrainLoss (losses : List ℚ) (interval : Nat) : ℚ :=
  windowLossValue losses / (interval : ℚ)

/-- Fuel-indexed chunking helper: cut successive full batches of size `bs`
off the front of the list while at least `bs` samples remain. -/
def chunksGo {α : Type} (bs : Nat) : Nat → List α → List (List α)
  | 0, _ => []
  | fuel + 1, l =>
    if 0 < bs ∧ bs ≤ l.length then l.take bs :: chunksGo bs fuel (l.drop bs) else []

/-- Batches yielded by a torch `DataLoader(..., drop_last=True)` over an
unshuffled dataset (library semantics of the validation loaders built at
train_age.py lines 129-136 and train_5fold.py lines 147-154): successive full
batches of `bs` samples; a final partial batch is dropped. -/
def chunksDropLast {α : Type} (bs : Nat) (l : List α) : List (List α) :=
  chunksGo bs l.length l

/-- Number of validation samples actually scored in one validation epoch: the
per-batch accuracy counts of train_age.py lines 272-276 (train_5fold.py lines
258-261) range over exactly the samples the loader yields. -/
def scoredCount {α : Type} (bs : Nat) (l : List α) : Nat :=
  ((chunksDropLast bs l).map List.length).sum

/-- Concrete validation set of five samples. -/
def c5ValSet : List ℕ :=
  [0, 1, 2, 3, 4]

/-- Checkpoint bookkeeping of the validation loop, per run: the best-F1
tracker, the epochs at which best.pth was written, the epoch whose weights
last.pth holds, and the epoch counter. -/
structure CkptState where
  bestF1 : ℚ
  writes : List Nat
  lastCkpt : Option Nat
  idx : Nat

/-- One epoch's checkpoint logic, train_age.py lines 295-299 (train_5fold.py
lines 277-281): `if score > best_val_f1` write best.pth and update the
tracker; then write last.pth unconditionally. -/
def ckptStep (s : CkptState) (score : ℚ) : CkptState :=
  if s.bestF1 < score then
    { bestF1 := score, writes := s.writes ++ [s.idx], lastCkpt := some s.idx,
      idx := s.idx + 1 }
  else
    { bestF1 := s.bestF1, writes := s.writes, lastCkpt := some s.idx,
      idx := s.idx + 1 }

/-- Checkpoint bookkeeping over a whole run's epoch F1 scores, the best
tracker starting at 0 (train_age.py line 165, train_5fold.py line 182). -/
def ckptRun (scores : List ℚ) : CkptState :=
  scores.foldl ckptStep ⟨0, [], none, 0⟩

/-- Concrete epoch F1 scores: epoch 0 improves on 0, epoch 1 regresses,
epoch 2 improves on everything. -/
def c4Scores : List ℚ :=
  [2, 1, 3]

/-- Checkpoint state threaded through the 5-fold run of train_5fold.py: the
per-fold best-F1 tracker, the (fold, epoch) whose weights best.pth currently
holds, and the epoch counter. -/
structure FoldCkpt where
  bestF1 : ℚ
  bestPth : Option (Nat × Nat)
  epoch : Nat

/-- One epoch of fold `f`, train_5fold.py lines 277-280: on strict
improvement best.pth is overwritten with this fold and epoch. -/
def foldEpochStep (f : Nat) (s : FoldCkpt) (score : ℚ) : FoldCkpt :=
  if s.bestF1 < score then ⟨score, some (f, s.epoch), s.epoch + 1⟩
  else ⟨s.bestF1, s.bestPth, s.epoch + 1⟩

/-- One whole fold `f` of train_5fold.py: `best_val_f1 = 0` is re-set at the
start of the fold (line 182) while best.pth carries over from earlier folds
because every fold writes into the one `save_dir` computed before the fold
loop (line 111); returns the (fold, epoch) best.pth holds afterwards. -/
def runFold (f : Nat) (scores : List ℚ) (pth : Option (Nat × Nat)) :
    Option (Nat × Nat) :=
  (scores.foldl (foldEpochStep f) ⟨0, pth, 0⟩).bestPth

/-- The `for fold in range(5)` loop of train_5fold.py line 128 over the five
folds' epoch F1 scores: the contents of best.pth after the run. -/
def run5Fold (g0 g1 g2 g3 g4 : List ℚ) : Option (Nat × Nat) :=
  runFold 4 g4 (runFold 3 g3 (runFold 2 g2 (runFold 1 g1 (runFold 0 g0 none))))

/-- C1: the combined-label packing is the bijection
`combined = mask*6 + gender*3 + age` between in-range triples and [0,17]:
both round trips hold, the composition of train_models.py line 91 implements
that affine formula, and labels 0, 6, 17 decode to (0,0,0), (1,0,0), (2,1,2)
respectively. -/
theorem label_pack_bijection :
    (∀ L, L < 18 →
      composeLabel (decodeMultiClass L).1 (decodeMultiClass L).2.1
        (decodeMultiClass L).2.2 = L) ∧
    (∀ m, m < 3 → ∀ g, g < 2 → ∀ a, a < 3 →
      decodeMultiClass (composeLabel m g a) = (m, g, a)) ∧
    (∀ m g a, composeLabel m g a = m * 6 + g * 3 + a) ∧
    decodeMultiClass 0 = (0, 0, 0) ∧ composeLabel 1 0 0 = 6 ∧
    decodeMultiClass 6 = (1, 0, 0) ∧ decodeMultiClass 17 = (2, 1, 2) := by
  refine ⟨by decide, by decide, ?_, by decide, by decide, by decide, by decide⟩
  intro m g a
  unfold composeLabel
  omega

/-- Witness for C1 at concrete inputs: label 11 round-trips, and the triple
(2,1,1) survives compose-then-decompose. -/
theorem label_pack_bijection_witness :
    composeLabel (decodeMultiClass 11).1 (decodeMultiClass 11).2.1
        (decodeMultiClass 11).2.2 = 11 ∧
    decodeMultiClass (composeLabel 2 1 1) = (2, 1, 1) :=
  ⟨label_pack_bijection.1 11 (by decide),
   label_pack_bijection.2.1 2 (by decide) 1 (by decide) 1 (by decide)⟩

/-- C6: final/test.py passes to `torch.load` exactly the path it later writes
its own CSV submission to — a `.csv` results file, not a `.pt`/`.pth`
serialized-weights file. -/
theorem testpy_load_path_is_csv_output :
    modelLoadPath = submissionOutPath ∧
    (".csv".data.isSuffixOf modelLoadPath.data = true) ∧
    (".pt".data.isSuffixOf modelLoadPath.data = false) ∧
    (".pth".data.isSuffixOf modelLoadPath.data = false) := by
  refine ⟨rfl, by decide, by decide, by decide⟩

/-- C7: the four names read by the validation loop of train_models.py are
bound on no path reaching it, and running the first validation batch raises a
NameError, at line 152 on `y_pred`. -/
theorem train_models_val_nameerror :
    runStmts envAtFirstValBatch valBatchBody = .error ("y_pred") ∧
    ("y_pred" ∉ envAtFirstValBatch ∧ "val_batch_out" ∉ envAtFirstValBatch ∧
     "loss_out" ∉ envAtFirstValBatch ∧ "total_val_loss" ∉ envAtFirstValBatch) := by
  refine ⟨rfl, by decide, by decide, by decide, by decide⟩

lemma foldl_min_le_init (l : List ℚ) (a : ℚ) : l.foldl min a ≤ a := by
  induction l generalizing a with
  | nil => exact le_refl a
  | cons x xs ih => exact le_trans (ih (min a x)) (min_le_left a x)

lemma foldl_min_le_mem (l : List ℚ) (a x : ℚ) (h : x ∈ l) : l.foldl min a ≤ x := by
  induction l generalizing a with
  | nil => cases h
  | cons y ys ih =>
    rcases List.mem_cons.mp h with hxy | hmem
    · subst hxy
      exact le_trans (foldl_min_le_init ys (min a x)) (min_le_right a x)
    · exact ih (min a y) hmem

lemma init_le_foldl_max (l : List ℚ) (a : ℚ) : a ≤ l.foldl max a := by
  induction l generalizing a with
  | nil => exact le_refl a
  | cons x xs ih => exact le_trans (le_max_left a x) (ih (max a x))

lemma mem_le_foldl_max (l : List ℚ) (a x : ℚ) (h : x ∈ l) : x ≤ l.foldl max a := by
  induction l generalizing a with
  | nil => cases h
  | cons y ys ih =>
    rcases List.mem_cons.mp h with hxy | hmem
    · subst hxy
      exact le_trans (le_max_right a x) (init_le_foldl_max ys (max a x))
    · exact ih (max a y) hmem

lemma listMin0_le_mem (l : List ℚ) (x : ℚ) (h : x ∈ l) : listMin0 l ≤ x := by
  cases l with
  | nil => cases h
  | cons y ys =>
    rcases List.mem_cons.mp h with hxy | hmem
    · subst hxy
      exact foldl_min_le_init ys x
    · exact foldl_min_le_mem ys y x hmem

lemma mem_le_listMax0 (l : List ℚ) (x : ℚ) (h : x ∈ l) : x ≤ listMax0 l := by
  cases l with
  | nil => cases h
  | cons y ys =>
    rcases List.mem_cons.mp h with hxy | hmem
    · subst hxy
      exact init_le_foldl_max ys x
    · exact mem_le_foldl_max ys y x hmem

lemma batchMin_le_batchMax (outs : List (Fin 11 → ℚ)) :
    batchMin outs ≤ batchMax outs := by
  unfold batchMin batchMax
  cases hE : entriesOf outs with
  | nil => exact le_refl 0
  | cons x xs =>
    exact le_trans (foldl_min_le_init xs x) (init_le_foldl_max xs x)

lemma entry_mem_entriesOf (outs : List (Fin 11 → ℚ)) (r : Fin 11 → ℚ)
    (hr : r ∈ outs) (j : Fin 11) : r j ∈ entriesOf outs := by
  unfold entriesOf
  refine List.mem_flatMap.mpr ⟨r, hr, ?_⟩
  exact List.mem_map.mpr ⟨j, List.mem_finRange j, rfl⟩

lemma normalizeBatch_some_bounds (outs ns : List (Fin 11 → ℚ))
    (h : normalizeBatch outs = some ns) :
    ∀ r ∈ ns, ∀ j, 0 ≤ r j ∧ r j ≤ 1 := by
  unfold normalizeBatch at h
  by_cases hz : batchMax outs - batchMin outs = 0
  · rw [if_pos hz] at h
    cases h
  · rw [if_neg hz] at h
    have hns := (Option.some.injEq _ _).mp h
    subst hns
    intro r hr j
    rcases List.mem_map.mp hr with ⟨r0, hr0, hmap⟩
    subst hmap
    have hmem := entry_mem_entriesOf outs r0 hr0 j
    have h1 : batchMin outs ≤ r0 j := listMin0_le_mem _ _ hmem
    have h2 : r0 j ≤ batchMax outs := mem_le_listMax0 _ _ hmem
    have hpos : 0 < batchMax outs - batchMin outs :=
      lt_of_le_of_ne (sub_nonneg.mpr (batchMin_le_batchMax outs)) (Ne.symm hz)
    constructor
    · exact div_nonneg (sub_nonneg.mpr h1) (le_of_lt hpos)
    · exact (div_le_one hpos).mpr (sub_le_sub_right h2 _)

lemma entriesOf_const (outs : List (Fin 11 → ℚ)) (c : ℚ)
    (hc : ∀ r ∈ outs, ∀ j, r j = c) : ∀ y ∈ entriesOf outs, y = c := by
  intro y hy
  unfold entriesOf at hy
  rcases List.mem_flatMap.mp hy with ⟨r, hr, hmap⟩
  rcases List.mem_map.mp hmap with ⟨j, _, hrj⟩
  rw [← hrj]
  exact hc r hr j

lemma foldl_min_const (l : List ℚ) (c : ℚ) (h : ∀ x ∈ l, x = c) :
    l.foldl min c = c := by
  induction l with
  | nil => rfl
  | cons x xs ih =>
    have hx : x = c := h x (List.mem_cons_self x xs)
    have hxs : ∀ y ∈ xs, y = c := fun y hy => h y (List.mem_cons_of_mem x hy)
    simp only [List.foldl_cons, hx, min_self]
    exact ih hxs

lemma foldl_max_const (l : List ℚ) (c : ℚ) (h : ∀ x ∈ l, x = c) :
    l.foldl max c = c := by
  induction l with
  | nil => rfl
  | cons x xs ih =>
    have hx : x = c := h x (List.mem_cons_self x xs)
    have hxs : ∀ y ∈ xs, y = c := fun y hy => h y (List.mem_cons_of_mem x hy)
    simp only [List.foldl_cons, hx, max_self]
    exact ih hxs

lemma batch_const_minmax_eq (outs : List (Fin 11 → ℚ)) (c : ℚ)
    (hc : ∀ r ∈ outs, ∀ j, r j = c) :
    batchMax outs - batchMin outs = 0 := by
  have hall := entriesOf_const outs c hc
  unfold batchMin batchMax
  cases hE : entriesOf outs with
  | nil => simp [listMin0, listMax0]
  | cons x xs =>
    have hx : x = c := hall x (by rw [hE]; exact List.mem_cons_self x xs)
    have hxs : ∀ y ∈ xs, y = c := fun y hy =>
      hall y (by rw [hE]; exact List.mem_cons_of_mem x hy)
    simp only [listMin0, listMax0, hx, foldl_min_const xs c hxs,
      foldl_max_const xs c hxs, sub_self]

lemma batchMax_c2 : batchMax c2Batch = 1 := by decide

lemma batchMin_c2 : batchMin c2Batch = 0 := by decide

lemma c2_divisor_ne : batchMax c2Batch - batchMin c2Batch ≠ 0 := by
  rw [batchMax_c2, batchMin_c2]
  norm_num

lemma normalizeBatch_c2 : normalizeBatch c2Batch = some c2Ns := by
  unfold normalizeBatch c2Ns
  rw [if_neg c2_divisor_ne]
  rfl

/-- C10: the min-max normalization of train_age.py line 189 has no guard on
the divisor `max(outs) - min(outs)`: for a batch whose logits are all equal
the divisor is zero and the normalized scores are undefined (NaN, modelled as
`none`) rather than values in [0,1]; whenever the divisor is nonzero the
normalized scores all lie in [0,1]. -/
theorem minmax_normal_guard (outs : List (Fin 11 → ℚ)) :
    (∀ c, (∀ r ∈ outs, ∀ j, r j = c) →
      batchMax outs - batchMin outs = 0 ∧ normalizeBatch outs = none) ∧
    (∀ ns, normalizeBatch outs = some ns → ∀ r ∈ ns, ∀ j, 0 ≤ r j ∧ r j ≤ 1) := by
  constructor
  · intro c hc
    have hz := batch_const_minmax_eq outs c hc
    refine ⟨hz, ?_⟩
    unfold normalizeBatch
    rw [if_pos hz]
  · intro ns h
    exact normalizeBatch_some_bounds outs ns h

/-- Witness for C10: the all-2 batch has divisor zero and normalization NaN;
the normalization of the 0..10 row lands in [0,1]. -/
theorem minmax_normal_guard_witness :
    (batchMax c10Const - batchMin c10Const = 0 ∧ normalizeBatch c10Const = none) ∧
    (∀ r ∈ c2Ns, ∀ j, 0 ≤ r j ∧ r j ≤ 1) :=
  ⟨(minmax_normal_guard c10Const).1 2 (by decide),
   (minmax_normal_guard c2Batch).2 c2Ns normalizeBatch_c2⟩

/-- Counterexample for C2: on the batch `c2Batch` the code's bucket 1
(`torch.sum(outs_normal[:,5:11])`, i.e. normalized indices 5-10 including
the last) evaluates to 1, while the bucket 1 the claim describes (indices
5-10 minus the last) evaluates to 0, so the claimed bucketing is not the one
computed. -/
theorem age_rebucket_cex :
    ((normalizeBatch c2Batch).map fun ns => ns.map fun r => bucketOuts r 1) = some [1] ∧
    ((normalizeBatch c2Batch).map fun ns => ns.map specBucket1) = some [0] ∧
    (1 : ℚ) ≠ 0 := by
  refine ⟨?_, ?_, by norm_num⟩
  · rw [normalizeBatch_c2]
    simp only [c2Ns, List.map_cons, List.map_nil, Option.map_some']
    simp only [bucketOuts, Matrix.cons_val_one, Matrix.head_cons]
    rw [batchMax_c2, batchMin_c2]
    simp only [c2Row,
      if_neg (by decide : ¬((0 : Fin 11) = 10)), if_neg (by decide : ¬((1 : Fin 11) = 10)),
      if_neg (by decide : ¬((2 : Fin 11) = 10)), if_neg (by decide : ¬((3 : Fin 11) = 10)),
      if_neg (by decide : ¬((4 : Fin 11) = 10)), if_neg (by decide : ¬((5 : Fin 11) = 10)),
      if_neg (by decide : ¬((6 : Fin 11) = 10)), if_neg (by decide : ¬((7 : Fin 11) = 10)),
      if_neg (by decide : ¬((8 : Fin 11) = 10)), if_neg (by decide : ¬((9 : Fin 11) = 10)),
      if_pos (by decide : ((10 : Fin 11) = 10))]
    norm_num
  · rw [normalizeBatch_c2]
    simp only [c2Ns, List.map_cons, List.map_nil, Option.map_some']
    simp only [specBucket1]
    rw [batchMax_c2, batchMin_c2]
    simp only [c2Row,
      if_neg (by decide : ¬((5 : Fin 11) = 10)), if_neg (by decide : ¬((6 : Fin 11) = 10)),
      if_neg (by decide : ¬((7 : Fin 11) = 10)), if_neg (by decide : ¬((8 : Fin 11) = 10)),
      if_neg (by decide : ¬((9 : Fin 11) = 10))]
    norm_num

/-- C2 (amended): the 11 per-class logits are min-max normalized into [0,1]
per batch (when the divisor is nonzero), and train_age.py line 190 re-buckets
them into 3 coarse scores as: indices 0-4 summed into bucket 0, indices 5-10
including the last summed into bucket 1 (the spec's bucket-1 sum plus the
last index again), and the last index alone forming bucket 2; bucket 1
overlaps bucket 2 at the last index, so the buckets do not partition the 11
indices. -/
theorem age_rebucket_amended (outs ns : List (Fin 11 → ℚ))
    (h : normalizeBatch outs = some ns) :
    (∀ r ∈ ns, ∀ j, 0 ≤ r j ∧ r j ≤ 1) ∧
    (∀ r ∈ ns,
      bucketOuts r 0 = r 0 + r 1 + r 2 + r 3 + r 4 ∧
      bucketOuts r 1 = r 5 + r 6 + r 7 + r 8 + r 9 + r 10 ∧
      bucketOuts r 1 = specBucket1 r + r 10 ∧
      bucketOuts r 2 = r 10) := by
  refine ⟨normalizeBatch_some_bounds outs ns h, ?_⟩
  intro r _
  exact ⟨rfl, rfl, rfl, rfl⟩

/-- Witness for C2 at the concrete batch `c2Batch`. -/
theorem age_rebucket_amended_witness :
    (∀ r ∈ c2Ns, ∀ j, 0 ≤ r j ∧ r j ≤ 1) ∧
    (∀ r ∈ c2Ns,
      bucketOuts r 0 = r 0 + r 1 + r 2 + r 3 + r 4 ∧
      bucketOuts r 1 = r 5 + r 6 + r 7 + r 8 + r 9 + r 10 ∧
      bucketOuts r 1 = specBucket1 r + r 10 ∧
      bucketOuts r 2 = r 10) :=
  age_rebucket_amended c2Batch c2Ns normalizeBatch_c2

lemma batchMax_c3 : batchMax [c3Out] = 1 := by decide

lemma batchMin_c3 : batchMin [c3Out] = 0 := by decide

lemma c3_divisor_ne : batchMax [c3Out] - batchMin [c3Out] ≠ 0 := by
  rw [batchMax_c3, batchMin_c3]
  norm_num

/-- C3: for every batch of the age-variant training loop whose normalization
divisor is nonzero, the scalar loss equals
`0.5 * fine_loss + coarse_loss`, where the fine loss is the configured
criterion on the 11-class logits against the fine labels and the coarse loss
is the class-weighted cross-entropy with weights exactly [1.5, 1.5, 7] on the
3 coarse bucket scores against the coarse labels. -/
theorem train_step_loss_formula
    (crit : List (Fin 11 → ℚ) → List (Fin 11) → ℚ) (expF logF : ℚ → ℚ)
    (outs : List (Fin 11 → ℚ)) (orgLabels : List (Fin 3))
    (labels : List (Fin 11)) (h : batchMax outs - batchMin outs ≠ 0) :
    trainStepLoss crit expF logF outs orgLabels labels =
      some (0.5 * crit outs labels +
        crossEntropyW expF logF ![1.5, 1.5, 7]
          ((outs.map fun r j =>
            (r j - batchMin outs) / (batchMax outs - batchMin outs)).map bucketOuts)
          orgLabels) := by
  unfold trainStepLoss normalizeBatch
  rw [if_neg h]
  rfl

/-- Witness for C3 at a concrete batch, criterion and exp/log. -/
theorem train_step_loss_formula_witness :
    (batchMax [c3Out] - batchMin [c3Out] ≠ 0) ∧
    trainStepLoss (fun _ _ => 1) id id [c3Out] [0] [0] =
      some (0.5 * (fun (_ : List (Fin 11 → ℚ)) (_ : List (Fin 11)) => (1 : ℚ)) [c3Out] [0] +
        crossEntropyW id id ![1.5, 1.5, 7]
          (([c3Out].map fun r j =>
            (r j - batchMin [c3Out]) / (batchMax [c3Out] - batchMin [c3Out])).map bucketOuts)
          [0]) :=
  ⟨c3_divisor_ne,
   train_step_loss_formula (fun _ _ => 1) id id [c3Out] [0] [0] c3_divisor_ne⟩

lemma foldl_half_sum (l : List ℚ) : ∀ a : ℚ,
    l.foldl (fun acc x => acc + x / 2) a = a + l.sum / 2 := by
  induction l with
  | nil => intro a; simp
  | cons x xs ih =>
    intro a
    rw [List.foldl_cons, ih, List.sum_cons]
    ring

/-- C8: the training loss printed and logged at each log interval of
train_age.py equals one half of the mean combined loss over that window
(line 202 accumulates `loss.item() / 2`, line 209 divides by the interval),
and in particular differs from the mean combined loss itself. -/
theorem age_train_loss_half_mean (losses : List ℚ) :
    windowTrainLoss losses losses.length = losses.sum / (losses.length : ℚ) / 2 ∧
    windowTrainLoss [1, 3] 2 ≠ ([1, 3] : List ℚ).sum / (2 : ℚ) := by
  constructor
  · unfold windowTrainLoss windowLossValue
    rw [foldl_half_sum, zero_add, div_right_comm]
  · unfold windowTrainLoss windowLossValue
    norm_num

lemma chunksGo_sum {α : Type} (bs : Nat) : ∀ (fuel : Nat) (l : List α),
    l.length ≤ fuel →
    ((chunksGo bs fuel l).map List.length).sum = bs * (l.length / bs) := by
  intro fuel
  induction fuel with
  | zero =>
    intro l hl
    have h0 : l.length = 0 := Nat.le_zero.mp hl
    simp [chunksGo, h0]
  | succ n ih =>
    intro l hl
    by_cases hc : 0 < bs ∧ bs ≤ l.length
    · have hdrop : (l.drop bs).length ≤ n := by
        rw [List.length_drop]
        omega
      simp only [chunksGo, if_pos hc, List.map_cons, List.sum_cons,
        List.length_take, ih (l.drop bs) hdrop, List.length_drop]
      rw [Nat.min_eq_left hc.2, Nat.div_eq_sub_div hc.1 hc.2]
      ring
    · simp only [chunksGo, if_neg hc, List.map_nil, List.sum_nil]
      rcases Nat.eq_zero_or_pos bs with hb | hb
      · simp [hb]
      · have hlen : l.length < bs := by
          by_contra hx
          exact hc ⟨hb, Nat.le_of_not_lt hx⟩
        rw [Nat.div_eq_of_lt hlen, Nat.mul_zero]

/-- C5 (amended): with `drop_last=True` a validation epoch scores only the
samples in full batches — `bs * (n / bs)` of the `n = len(val_set)` samples —
so the accuracy denominator `len(val_set)` counts every scored sample exactly
when the validation batch size divides the validation set size; otherwise the
final partial batch is never scored. -/
theorem val_scored_drop_last {α : Type} (l : List α) (bs : Nat) (hbs : 0 < bs) :
    scoredCount bs l = bs * (l.length / bs) ∧
    scoredCount bs l ≤ l.length ∧
    (scoredCount bs l = l.length ↔ l.length % bs = 0) := by
  have hsum : scoredCount bs l = bs * (l.length / bs) :=
    chunksGo_sum bs l.length l (le_refl _)
  have hdm : bs * (l.length / bs) + l.length % bs = l.length :=
    Nat.div_add_mod l.length bs
  refine ⟨hsum, ?_, ?_⟩
  · rw [hsum, Nat.mul_comm]
    exact Nat.div_mul_le_self l.length bs
  · rw [hsum]
    constructor
    · intro h
      rw [h] at hdm
      have h3 : l.length + l.length % bs = l.length + 0 := by
        rw [Nat.add_zero]
        exact hdm
      exact Nat.add_left_cancel h3
    · intro h
      rw [h, Nat.add_zero] at hdm
      exact hdm

/-- Counterexample for C5: a validation set of 5 samples with validation
batch size 2 scores only 4 samples, so the denominator `len(val_set)` does
not count exactly the samples actually scored. -/
theorem val_denominator_cex :
    scoredCount 2 c5ValSet = 4 ∧ c5ValSet.length = 5 ∧
    scoredCount 2 c5ValSet ≠ c5ValSet.length := by
  refine ⟨by decide, by decide, by decide⟩

/-- Witness for C5 at the concrete five-sample set with batch size 2. -/
theorem val_scored_drop_last_witness :
    scoredCount 2 c5ValSet = 2 * (c5ValSet.length / 2) ∧
    scoredCount 2 c5ValSet ≤ c5ValSet.length ∧
    (scoredCount 2 c5ValSet = c5ValSet.length ↔ c5ValSet.length % 2 = 0) :=
  val_scored_drop_last c5ValSet 2 (by decide)

lemma ckptStep_idx (s : CkptState) (x : ℚ) : (ckptStep s x).idx = s.idx + 1 := by
  unfold ckptStep
  split <;> rfl

lemma ckptStep_last (s : CkptState) (x : ℚ) :
    (ckptStep s x).lastCkpt = some s.idx := by
  unfold ckptStep
  split <;> rfl

lemma ckptStep_best (s : CkptState) (x : ℚ) :
    (ckptStep s x).bestF1 = max s.bestF1 x := by
  unfold ckptStep
  split
  · rename_i h
    exact (max_eq_right (le_of_lt h)).symm
  · rename_i h
    exact (max_eq_left (not_lt.mp h)).symm

lemma ckptRun_aux_last (l : List ℚ) : ∀ s : CkptState, l ≠ [] →
    (l.foldl ckptStep s).lastCkpt = some (s.idx + (l.length - 1)) := by
  induction l with
  | nil => intro s h; exact absurd rfl h
  | cons x xs ih =>
    intro s _
    cases xs with
    | nil => simp [ckptStep_last]
    | cons y ys =>
      rw [List.foldl_cons, ih (ckptStep s x) (by simp), ckptStep_idx]
      simp only [List.length_cons]
      congr 1
      omega

lemma ckptRun_aux_writes (l : List ℚ) : ∀ (s : CkptState) (i : Nat),
    i ∈ (l.foldl ckptStep s).writes →
    i ∈ s.writes ∨ ∃ k, k < l.length ∧ i = s.idx + k ∧
      (l.take k).foldl max s.bestF1 < l.getD k 0 := by
  induction l with
  | nil => intro s i h; exact Or.inl h
  | cons x xs ih =>
    intro s i h
    rw [List.foldl_cons] at h
    rcases ih (ckptStep s x) i h with hmem | ⟨k, hk, hik, hlt⟩
    · by_cases hx : s.bestF1 < x
      · simp only [ckptStep, if_pos hx, List.mem_append, List.mem_singleton] at hmem
        rcases hmem with h1 | h2
        · exact Or.inl h1
        · right
          refine ⟨0, by simp, by simp [h2], ?_⟩
          simpa using hx
      · simp only [ckptStep, if_neg hx] at hmem
        exact Or.inl hmem
    · right
      refine ⟨k + 1, by simpa using hk, ?_, ?_⟩
      · rw [hik, ckptStep_idx]
        omega
      · rw [List.take_succ_cons, List.foldl_cons, List.getD_cons_succ,
          ← ckptStep_best]
        exact hlt

lemma getD_le_take_foldl_max (l : List ℚ) : ∀ (j k : Nat) (b : ℚ),
    j < k → j < l.length → l.getD j 0 ≤ (l.take k).foldl max b := by
  induction l with
  | nil => intro j k b _ h; simp at h
  | cons x xs ih =>
    intro j k b hjk hjl
    cases k with
    | zero => omega
    | succ m =>
      rw [List.take_succ_cons, List.foldl_cons]
      cases j with
      | zero =>
        rw [List.getD_cons_zero]
        exact le_trans (le_max_right b x) (init_le_foldl_max (xs.take m) (max b x))
      | succ j' =>
        rw [List.getD_cons_succ]
        exact ih j' m (max b x) (by omega) (by simpa using hjl)

/-- C4: best.pth is written at epoch i of a run only when that epoch's
validation macro-F1 strictly exceeds every previously observed score of the
run (so an equal or lower score never overwrites it), while last.pth always
holds the most recently completed epoch (train_age.py lines 295-299,
train_5fold.py lines 277-281, an identical comparison-and-save block). -/
theorem ckpt_best_strict_improvement (scores : List ℚ) (i : Nat)
    (hi : i ∈ (ckptRun scores).writes) :
    (i < scores.length ∧ ∀ j, j < i → scores.getD j 0 < scores.getD i 0) ∧
    (ckptRun scores).lastCkpt = some (scores.length - 1) := by
  rcases ckptRun_aux_writes scores ⟨0, [], none, 0⟩ i hi with hmem | ⟨k, hk, hik, hlt⟩
  · simp at hmem
  · have hik' : i = k := by simpa using hik
    subst hik'
    constructor
    · refine ⟨hk, ?_⟩
      intro j hj
      have hle := getD_le_take_foldl_max scores j i 0 hj (lt_trans hj hk)
      exact lt_of_le_of_lt hle hlt
    · have hne : scores ≠ [] := by
        intro he
        rw [he] at hk
        simp at hk
      have hlast := ckptRun_aux_last scores ⟨0, [], none, 0⟩ hne
      simpa using hlast

/-- Witness for C4: on the score sequence 2, 1, 3, epoch 2 writes best.pth
and strictly beats both earlier epochs; last.pth holds epoch 2. -/
theorem ckpt_best_strict_improvement_witness :
    (2 < c4Scores.length ∧ ∀ j, j < 2 → c4Scores.getD j 0 < c4Scores.getD 2 0) ∧
    (ckptRun c4Scores).lastCkpt = some (c4Scores.length - 1) :=
  ckpt_best_strict_improvement c4Scores 2 (by decide)

lemma foldl_max_all_le (l : List ℚ) : ∀ b : ℚ, (∀ x ∈ l, x ≤ b) →
    l.foldl max b = b := by
  induction l with
  | nil => intro b _; rfl
  | cons x xs ih =>
    intro b h
    rw [List.foldl_cons, max_eq_left (h x (List.mem_cons_self x xs))]
    exact ih b fun y hy => h y (List.mem_cons_of_mem x hy)

lemma runFold_no_improve (f : Nat) (l : List ℚ) : ∀ s : FoldCkpt,
    (∀ x ∈ l, x ≤ s.bestF1) →
    l.foldl (foldEpochStep f) s = ⟨s.bestF1, s.bestPth, s.epoch + l.length⟩ := by
  induction l with
  | nil => intro s _; cases s; simp
  | cons x xs ih =>
    intro s h
    have hx : ¬ s.bestF1 < x := not_lt.mpr (h x (List.mem_cons_self x xs))
    rw [List.foldl_cons]
    have hstep : foldEpochStep f s x = ⟨s.bestF1, s.bestPth, s.epoch + 1⟩ := by
      simp [foldEpochStep, hx]
    rw [hstep, ih ⟨s.bestF1, s.bestPth, s.epoch + 1⟩
      (fun y hy => h y (List.mem_cons_of_mem x hy))]
    simp only [List.length_cons, FoldCkpt.mk.injEq, true_and]
    omega

lemma runFold_improve (f : Nat) (l : List ℚ) : ∀ (b : ℚ) (p : Option (Nat × Nat)) (e : Nat),
    (∃ x ∈ l, b < x) →
    ∃ k, k < l.length ∧
      (l.foldl (foldEpochStep f) ⟨b, p, e⟩).bestPth = some (f, e + k) ∧
      l.getD k 0 = l.foldl max b := by
  induction l with
  | nil =>
    intro b p e h
    rcases h with ⟨x, hx, _⟩
    cases hx
  | cons x xs ih =>
    intro b p e h
    rw [List.foldl_cons]
    by_cases hbx : b < x
    · have hstep : foldEpochStep f ⟨b, p, e⟩ x = ⟨x, some (f, e), e + 1⟩ := by
        simp [foldEpochStep, hbx]
      rw [hstep]
      by_cases hxs : ∃ y ∈ xs, x < y
      · rcases ih x (some (f, e)) (e + 1) hxs with ⟨k, hk, hp, hv⟩
        refine ⟨k + 1, by simpa using hk, ?_, ?_⟩
        · rw [hp]
          have he : e + 1 + k = e + (k + 1) := by omega
          rw [he]
        · rw [List.getD_cons_succ, List.foldl_cons,
            max_eq_right (le_of_lt hbx)]
          exact hv
      · push_neg at hxs
        rw [runFold_no_improve f xs ⟨x, some (f, e), e + 1⟩ (by
          intro y hy
          exact hxs y hy)]
        refine ⟨0, by simp, by simp, ?_⟩
        rw [List.getD_cons_zero, List.foldl_cons,
          max_eq_right (le_of_lt hbx),
          foldl_max_all_le xs x hxs]
    · have hstep : foldEpochStep f ⟨b, p, e⟩ x = ⟨b, p, e + 1⟩ := by
        simp [foldEpochStep, hbx]
      rw [hstep]
      have hxs : ∃ y ∈ xs, b < y := by
        rcases h with ⟨y, hy, hby⟩
        rcases List.mem_cons.mp hy with h1 | h2
        · rw [h1] at hby
          exact absurd hby hbx
        · exact ⟨y, h2, hby⟩
      rcases ih b p (e + 1) hxs with ⟨k, hk, hp, hv⟩
      refine ⟨k + 1, by simpa using hk, ?_, ?_⟩
      · rw [hp]
        have he : e + 1 + k = e + (k + 1) := by omega
        rw [he]
      · rw [List.getD_cons_succ, List.foldl_cons, max_eq_left (not_lt.mp hbx)]
        exact hv

lemma runFold_spec (f : Nat) (l : List ℚ) (p : Option (Nat × Nat))
    (h : ∃ x ∈ l, 0 < x) :
    ∃ k, k < l.length ∧ runFold f l p = some (f, k) ∧
      l.getD k 0 = l.foldl max 0 := by
  unfold runFold
  rcases runFold_improve f l 0 p 0 h with ⟨k, hk, hp, hv⟩
  refine ⟨k, hk, ?_, hv⟩
  simpa using hp

/-- C9: the best-metric trackers restart at 0 in every fold and all folds
share one save directory, so after the 5-fold run best.pth holds a checkpoint
of the final fold (fold 4) — the epoch attaining the final fold's maximum
F1 — for any scores the earlier folds produced, provided the final fold has
at least one positive score. -/
theorem fold5_best_ckpt_last_fold (g0 g1 g2 g3 g4 : List ℚ)
    (h : ∃ s ∈ g4, 0 < s) :
    ∃ e, e < g4.length ∧ run5Fold g0 g1 g2 g3 g4 = some (4, e) ∧
      g4.getD e 0 = g4.foldl max 0 := by
  rcases runFold_spec 4 g4
    (runFold 3 g3 (runFold 2 g2 (runFold 1 g1 (runFold 0 g0 none)))) h with
    ⟨k, hk, hp, hv⟩
  exact ⟨k, hk, hp, hv⟩

/-- Witness for C9: fold 0 scores 9 yet best.pth ends holding fold 4's
epoch-0 checkpoint, whose score 2 is merely the final fold's maximum. -/
theorem fold5_best_ckpt_last_fold_witness :
    ∃ e, e < ([2] : List ℚ).length ∧
      run5Fold [9] [1] [1] [1] [2] = some (4, e) ∧
      ([2] : List ℚ).getD e 0 = ([2] : List ℚ).foldl max 0 :=
  fold5_best_ckpt_last_fold [9] [1] [1] [1] [2] (by decide)
